import Mathlib

/-!
Verification of the software-metrics aggregation core of a Prometheus
exporter (`app.py`).  The embedding models the pure computation performed
by `collect_software_metrics`, `collect_device_metrics` and the pagination
loop of `get_devices`; the Prometheus gauge writes are represented as the
returned observation records, and Python dictionaries (which preserve
insertion order) are represented as association lists updated in place.
Python float division is modelled by exact rational division.
-/

deriving instance DecidableEq for Except

namespace PDQ

/-- A software install entry as read from a device record:
`sw.get('name')` / `sw.get('versionRaw')`, each possibly absent. -/
structure SwInstall where
  name : Option String := none
  versionRaw : Option String := none
deriving DecidableEq, Repr

/-- A disk sub-record of a device. -/
structure Disk where
  diskId : Option String := none
  model : Option String := none
  mediaType : Option String := none
  totalSpaceKb : Option Int := none
deriving DecidableEq, Repr

/-- A driver sub-record of a device. -/
structure Driver where
  driverId : Option String := none
  name : Option String := none
  version : Option String := none
  provider : Option String := none
deriving DecidableEq, Repr

/-- The `activeDirectory` sub-record of a device. -/
structure ADRecord where
  deviceName : Option String := none
deriving DecidableEq, Repr

/-- A custom-field sub-record of a device. -/
structure CustomField where
  name : Option String := none
  value : Option String := none
deriving DecidableEq, Repr

/-- A device record returned by the API.  Every field the exporter reads
is optional; a `none` models a key absent from the JSON object.  The
`activeDirectory` value is `none` when the key is absent or the dict is
empty (both are falsy in `if active_directory:`). -/
structure DeviceRecord where
  hostname : Option String := none
  architecture : Option String := none
  devId : Option String := none
  insertedAt : Option String := none
  lastUser : Option String := none
  model : Option String := none
  name : Option String := none
  osVersion : Option String := none
  publicIpAddress : Option String := none
  serialNumber : Option String := none
  servicePack : Option String := none
  disks : List Disk := []
  drivers : List Driver := []
  activeDirectory : Option ADRecord := none
  customFields : List CustomField := []
  software : List SwInstall := []
deriving DecidableEq, Repr

/-! ### The version tokenizer of `collect_software_metrics`

`lambda v: [int(x) if x.isdigit() else x for x in v.replace('.', ' ').split()]`
-/

/-- The characters Python `str.split()` (no argument) splits on. -/
def isPySpace (c : Char) : Bool :=
  c = ' ' || c = '\t' || c = '\n' || c = '\r' || c = '\x0b' || c = '\x0c'

/-- `v.replace('.', ' ')`, character by character. -/
def dotToSpace (c : Char) : Char := if c = '.' then ' ' else c

/-- Python `str.split()` with no separator: split on runs of whitespace,
discarding empty fields.  `acc` is the (reversed) current field. -/
def splitWSAux : List Char → List Char → List (List Char)
  | [], acc => if acc.isEmpty then [] else [acc.reverse]
  | c :: cs, acc =>
    if isPySpace c then
      if acc.isEmpty then splitWSAux cs [] else acc.reverse :: splitWSAux cs []
    else splitWSAux cs (c :: acc)

/-- `x.isdigit()` restricted to ASCII decimal digits. -/
def isDigits (cs : List Char) : Bool :=
  !cs.isEmpty && cs.all (fun c => 48 ≤ c.toNat && c.toNat ≤ 57)

/-- `int(x)` for a string of decimal digits. -/
def decDigits (cs : List Char) : Nat :=
  cs.foldl (fun n c => n * 10 + (c.toNat - 48)) 0

/-- A token of the comparison key: a Python `int` or a Python `str`. -/
inductive Tok where
  | int : Nat → Tok
  | str : List Char → Tok
deriving DecidableEq, Repr

/-- `int(x) if x.isdigit() else x` for one token. -/
def tokOf (cs : List Char) : Tok :=
  if isDigits cs then .int (decDigits cs) else .str cs

/-- The comparison key of a version string:
`[int(x) if x.isdigit() else x for x in v.replace('.', ' ').split()]`. -/
def keyOf (v : String) : List Tok :=
  (splitWSAux (v.data.map dotToSpace) []).map tokOf

/-! ### Python comparison semantics -/

/-- Three-way comparison on `Nat` (Python `int` comparison). -/
def natCmp (a b : Nat) : Ordering :=
  if a < b then .lt else if b < a then .gt else .eq

/-- Three-way comparison on characters by code point. -/
def charCmp (a b : Char) : Ordering := natCmp a.toNat b.toNat

/-- Python string comparison: lexicographic by code point, a strict
prefix comparing less. -/
def lexCmp : List Char → List Char → Ordering
  | [], [] => .eq
  | [], _ :: _ => .lt
  | _ :: _, [] => .gt
  | a :: as, b :: bs =>
    match charCmp a b with
    | .eq => lexCmp as bs
    | o => o

/-- Python `==` on tokens: mixed `int`/`str` are unequal (no error). -/
def tokEq : Tok → Tok → Bool
  | .int a, .int b => a == b
  | .str a, .str b => a == b
  | _, _ => false

/-- Python list comparison on token lists: scan for the first position
whose elements are not `==`-equal and compare there; comparing an `int`
with a `str` raises `TypeError`, modelled as `.error ()`.  A list that is
a strict prefix of the other compares less. -/
def toksCmp : List Tok → List Tok → Except Unit Ordering
  | [], [] => .ok (.eq)
  | [], _ :: _ => .ok (.lt)
  | _ :: _, [] => .ok (.gt)
  | a :: as, b :: bs =>
    if tokEq a b then toksCmp as bs
    else
      match a, b with
      | .int x, .int y => .ok (natCmp x y)
      | .str x, .str y => .ok (lexCmp x y)
      | _, _ => .error ()

/-- The scan of Python `max(iterable, key=key)`: keep the current
maximum, replacing it when a later element's key compares greater; a
`TypeError` during any comparison aborts the whole `max`. -/
def pyMaxByGo (key : String → List Tok) : String → List String → Except Unit String
  | m, [] => .ok m
  | m, x :: xs =>
    match toksCmp (key x) (key m) with
    | .error e => .error e
    | .ok (.gt) => pyMaxByGo key x xs
    | .ok _ => pyMaxByGo key m xs

/-- Python `max` over raw strings (the `except` branch): keep the first
maximum under string comparison. -/
def pyStrMax (v : String) (vs : List String) : String :=
  vs.foldl (fun m x => if lexCmp x.data m.data = .gt then x else m) v

/-- The `latest` selection of `collect_software_metrics`:
`try: max(keys, key=...) except: max(keys)`.  `none` only on an empty
list (never reached: version tables are non-empty). -/
def selectLatest : List String → Option String
  | [] => none
  | v :: vs =>
    match pyMaxByGo keyOf v vs with
    | .ok m => some m
    | .error _ => some (pyStrMax v vs)

/-! ### The aggregation tables (`sw_stats`) -/

/-- A per-software version table: insertion-ordered `version ↦ count`. -/
abbrev VersionTable := List (String × Nat)

/-- The outer table: insertion-ordered `software name ↦ VersionTable`. -/
abbrev Stats := List (String × VersionTable)

/-- `versions[v] += 1` on an insertion-ordered dict. -/
def bump : VersionTable → String → VersionTable
  | [], v => [(v, 1)]
  | (k, c) :: rest, v =>
    if k = v then (k, c + 1) :: rest else (k, c) :: bump rest v

/-- `sw_stats[n][v] += 1` on the insertion-ordered outer dict. -/
def addInstall : Stats → String → String → Stats
  | [], n, v => [(n, [(v, 1)])]
  | (k, tbl) :: rest, n, v =>
    if k = n then (k, bump tbl v) :: rest else (k, tbl) :: addInstall rest n v

/-- One iteration of the install loop:
`if name and version: sw_stats[name][version] += 1`.  A missing field or
an empty string is falsy and the entry is skipped. -/
def installStep (st : Stats) (sw : SwInstall) : Stats :=
  match sw.name, sw.versionRaw with
  | some n, some v => if n = ("") ∨ v = ("") then st else addInstall st n v
  | _, _ => st

/-- The two nested loops filling `sw_stats`. -/
def buildStats (devices : List DeviceRecord) : Stats :=
  devices.foldl (fun st d => d.software.foldl installStep st) []

/-- Dict lookup in a version table. -/
def lookupVer : VersionTable → String → Option Nat
  | [], _ => none
  | (k, c) :: rest, v => if k = v then some c else lookupVer rest v

/-- The per-software aggregate computed in the body of the
`for sw, versions in sw_stats.items()` loop. -/
structure SoftwareAggregate where
  softwareName : String
  versionCounts : VersionTable
  totalInstalls : Nat
  latestVersion : String
  updatedInstalls : Nat
  updatedPercent : ℚ
deriving DecidableEq, Repr

/-- The loop body: `total`, `latest`, `updated`, `percent` for one
software name (rational arithmetic models Python float division). -/
def mkAggregate (p : String × VersionTable) : SoftwareAggregate :=
  let total := (p.2.map Prod.snd).sum
  let latest := (selectLatest (p.2.map Prod.fst)).getD ("")
  let updated := (lookupVer p.2 latest).getD 0
  { softwareName := p.1
    versionCounts := p.2
    totalInstalls := total
    latestVersion := latest
    updatedInstalls := updated
    updatedPercent := if 0 < total then (updated : ℚ) / (total : ℚ) * 100 else 0 }

/-- `collect_software_metrics` as a pure function: the aggregates whose
fields are written to the five software gauges, in emission order. -/
def collect_software_metrics (devices : List DeviceRecord) : List SoftwareAggregate :=
  (buildStats devices).map mkAggregate

/-- Swap an `Ordering` inside a possibly failed comparison. -/
def swapE : Except Unit Ordering → Except Unit Ordering
  | .ok o => .ok o.swap
  | .error e => .error e

/-- Dict lookup in the outer `sw_stats` table. -/
def findTbl : Stats → String → Option VersionTable
  | [], _ => none
  | (k, tbl) :: rest, n => if k = n then some tbl else findTbl rest n

/-- The total install count recorded for a software name (0 when the
name has no entry). -/
def totalFor (st : Stats) (n : String) : Nat :=
  (((findTbl st n).getD []).map Prod.snd).sum

/-- Whether an install entry counts toward the aggregate of name `n`:
its name equals `n` and both name and version are present and
non-empty (Python truthiness). -/
def isValidNamed (n : String) (sw : SwInstall) : Bool :=
  match sw.name, sw.versionRaw with
  | some m, some v => m == n && !(m == ("")) && !(v == (""))
  | _, _ => false

/-- The number of install entries across all devices counted toward the
aggregate of name `n`. -/
def countInstallsNamed (devices : List DeviceRecord) (n : String) : Nat :=
  ((devices.map (fun d => d.software)).flatten).countP (isValidNamed n)

/-- Well-formedness of the `sw_stats` table: outer keys are distinct,
every version table is non-empty with distinct keys, and every count is
at least 1. -/
def StatsWF (st : Stats) : Prop :=
  (st.map Prod.fst).Nodup ∧
  ∀ p ∈ st, p.2 ≠ [] ∧ (p.2.map Prod.fst).Nodup ∧ ∀ q ∈ p.2, 1 ≤ q.2

/-- Modelled from the spec: the §4.1 policy for mixed token types,
"treat integer keys as always less than string keys at a shared
position"; integer tokens compare numerically and string tokens
lexicographically.  This is the comparator the spec claims; the code
under verification has no such rule (it raises and falls back), which
is what the theorems about it settle. -/
def specTokCmp : Tok → Tok → Ordering
  | .int a, .int b => natCmp a b
  | .str a, .str b => lexCmp a b
  | .int _, .str _ => .lt
  | .str _, .int _ => .gt

/-- Modelled from the spec: element-wise comparison of token sequences
under `specTokCmp`, shorter prefix first. -/
def specKeyCmp : List Tok → List Tok → Ordering
  | [], [] => .eq
  | [], _ :: _ => .lt
  | _ :: _, [] => .gt
  | a :: as, b :: bs =>
    match specTokCmp a b with
    | .eq => specKeyCmp as bs
    | o => o

/-! ### The hardware projection of `collect_device_metrics` -/

/-- The label set of one `pdq_device_info` observation. -/
structure DeviceInfoLabels where
  hostname : String
  architecture : String
  devId : String
  insertedAt : String
  lastUser : String
  model : String
  name : String
  osVersion : String
  publicIpAddress : String
  serialNumber : String
  servicePack : String
deriving DecidableEq, Repr

/-- The label set of one `pdq_disk_info` observation. -/
structure DiskLabels where
  hostname : String
  diskId : String
  model : String
  mediaType : String
  totalSpaceKb : Int
deriving DecidableEq, Repr

/-- The label set of one `pdq_driver_info` observation. -/
structure DriverLabels where
  hostname : String
  driverId : String
  name : String
  version : String
  provider : String
deriving DecidableEq, Repr

/-- The label set of one `pdq_ad_info` observation. -/
structure ADLabels where
  hostname : String
  deviceName : String
deriving DecidableEq, Repr

/-- The label set of one `pdq_custom_fields_info` observation. -/
structure CustomFieldLabels where
  hostname : String
  fieldName : String
  fieldValue : String
deriving DecidableEq, Repr

/-- The per-device `device.get(field, 'unknown')` projection. -/
def projectDeviceInfo (d : DeviceRecord) : DeviceInfoLabels :=
  { hostname := d.hostname.getD ("unknown")
    architecture := d.architecture.getD ("unknown")
    devId := d.devId.getD ("unknown")
    insertedAt := d.insertedAt.getD ("unknown")
    lastUser := d.lastUser.getD ("unknown")
    model := d.model.getD ("unknown")
    name := d.name.getD ("unknown")
    osVersion := d.osVersion.getD ("unknown")
    publicIpAddress := d.publicIpAddress.getD ("unknown")
    serialNumber := d.serialNumber.getD ("unknown")
    servicePack := d.servicePack.getD ("unknown") }

/-- The disk loop of `collect_device_metrics`. -/
def projectDisks (d : DeviceRecord) : List DiskLabels :=
  d.disks.map fun k =>
    { hostname := d.hostname.getD ("unknown")
      diskId := k.diskId.getD ("unknown")
      model := k.model.getD ("unknown")
      mediaType := k.mediaType.getD ("unknown")
      totalSpaceKb := k.totalSpaceKb.getD 0 }

/-- The driver loop of `collect_device_metrics`. -/
def projectDrivers (d : DeviceRecord) : List DriverLabels :=
  d.drivers.map fun k =>
    { hostname := d.hostname.getD ("unknown")
      driverId := k.driverId.getD ("unknown")
      name := k.name.getD ("unknown")
      version := k.version.getD ("unknown")
      provider := k.provider.getD ("unknown") }

/-- The Active Directory block: one observation when the sub-record is
present (truthy), none otherwise. -/
def projectAD (d : DeviceRecord) : List ADLabels :=
  match d.activeDirectory with
  | some r =>
    [{ hostname := d.hostname.getD ("unknown")
       deviceName := r.deviceName.getD ("unknown") }]
  | none => []

/-- The custom-field loop of `collect_device_metrics`. -/
def projectCustomFields (d : DeviceRecord) : List CustomFieldLabels :=
  d.customFields.map fun f =>
    { hostname := d.hostname.getD ("unknown")
      fieldName := f.name.getD ("unknown")
      fieldValue := f.value.getD ("unknown") }

/-- All observations produced by one run of `collect_device_metrics`:
the `device_count.set(len(devices))` value and the per-device label
sets, in loop order. -/
structure HardwareMetrics where
  deviceCount : Nat
  deviceInfos : List DeviceInfoLabels
  diskInfos : List DiskLabels
  driverInfos : List DriverLabels
  adInfos : List ADLabels
  customFieldInfos : List CustomFieldLabels
deriving DecidableEq, Repr

/-- `collect_device_metrics` as a pure function of the device list. -/
def collect_device_metrics (devices : List DeviceRecord) : HardwareMetrics :=
  { deviceCount := devices.length
    deviceInfos := devices.map projectDeviceInfo
    diskInfos := (devices.map projectDisks).flatten
    driverInfos := (devices.map projectDrivers).flatten
    adInfos := (devices.map projectAD).flatten
    customFieldInfos := (devices.map projectCustomFields).flatten }

/-! ### The pagination loop of `get_devices` -/

/-- The fixed `pageSize` request parameter. -/
def pageSize : Nat := 100

/-- The `while True` loop of `get_devices`, with the upstream responses
abstracted as the function `pages` from page number (1-based) to batch.
`fuel` bounds the number of iterations modelled; `none` means the loop
is still running after `fuel` iterations. -/
def getDevicesLoop (pages : Nat → List DeviceRecord) :
    Nat → Nat → List DeviceRecord → Option (List DeviceRecord)
  | 0, _, _ => none
  | fuel + 1, page, acc =>
    let batch := pages page
    if batch = [] then some acc
    else if batch.length < pageSize then some (acc ++ batch)
    else getDevicesLoop pages fuel (page + 1) (acc ++ batch)

/-- `get_devices`: run the loop from page 1 with an empty accumulator. -/
def get_devices (pages : Nat → List DeviceRecord) (fuel : Nat) :
    Option (List DeviceRecord) :=
  getDevicesLoop pages fuel 1 []

/-! ### Concrete records used in the closed evaluation theorems -/

/-- A device holding one install of `app` at version `1.2`. -/
def devA : DeviceRecord :=
  { software := [{ name := some ("app"), versionRaw := some ("1.2") }] }

/-- A device holding one install of `app` at version `01.2` (same token
key as `1.2`). -/
def devB : DeviceRecord :=
  { software := [{ name := some ("app"), versionRaw := some ("01.2") }] }

/-- A device with one valid install and one install missing its name. -/
def demoDevice : DeviceRecord :=
  { software := [{ name := some ("app"), versionRaw := some ("1.0") },
                 { name := none, versionRaw := some ("2.0") }] }

/-- A device record with every field absent. -/
def emptyDevice : DeviceRecord := {}

/-! ### Basic facts about the comparison primitives -/

theorem char_toNat_inj {a b : Char} (h : a.toNat = b.toNat) : a = b := by
  rw [← Char.ofNat_toNat a, h, Char.ofNat_toNat]

theorem natCmp_eq_eq {a b : Nat} : natCmp a b = .eq ↔ a = b := by
  unfold natCmp; split_ifs <;> simp <;> omega

theorem natCmp_eq_lt {a b : Nat} : natCmp a b = .lt ↔ a < b := by
  unfold natCmp; split_ifs <;> simp <;> omega

theorem natCmp_eq_gt {a b : Nat} : natCmp a b = .gt ↔ b < a := by
  unfold natCmp; split_ifs <;> simp <;> omega

theorem natCmp_swap (a b : Nat) : natCmp b a = (natCmp a b).swap := by
  unfold natCmp; split_ifs <;> simp [Ordering.swap] <;> omega

theorem charCmp_eq_eq {a b : Char} : charCmp a b = .eq ↔ a = b := by
  unfold charCmp
  rw [natCmp_eq_eq]
  exact ⟨char_toNat_inj, fun h => by rw [h]⟩

theorem charCmp_swap (a b : Char) : charCmp b a = (charCmp a b).swap :=
  natCmp_swap _ _

theorem charCmp_lt_trans {a b c : Char} (h₁ : charCmp a b = .lt)
    (h₂ : charCmp b c = .lt) : charCmp a c = .lt := by
  unfold charCmp at *
  rw [natCmp_eq_lt] at *
  omega

theorem lexCmp_self (as : List Char) : lexCmp as as = .eq := by
  induction as with
  | nil => rfl
  | cons a as ih =>
    unfold lexCmp
    rw [charCmp_eq_eq.mpr rfl]
    exact ih

theorem lexCmp_eq_eq : ∀ as bs : List Char, lexCmp as bs = .eq ↔ as = bs
  | [], [] => by simp [lexCmp]
  | [], _ :: _ => by simp [lexCmp]
  | _ :: _, [] => by simp [lexCmp]
  | a :: as, b :: bs => by
    unfold lexCmp
    cases h : charCmp a b with
    | eq =>
      have hab : a = b := charCmp_eq_eq.mp h
      subst hab
      rw [lexCmp_eq_eq as bs]
      simp
    | lt =>
      have hab : a ≠ b := fun hc => by rw [charCmp_eq_eq.mpr hc] at h; cases h
      simp [hab]
    | gt =>
      have hab : a ≠ b := fun hc => by rw [charCmp_eq_eq.mpr hc] at h; cases h
      simp [hab]

theorem lexCmp_swap : ∀ as bs : List Char, lexCmp bs as = (lexCmp as bs).swap
  | [], [] => rfl
  | [], _ :: _ => rfl
  | _ :: _, [] => rfl
  | a :: as, b :: bs => by
    unfold lexCmp
    rw [charCmp_swap b a]
    cases charCmp b a with
    | eq => exact lexCmp_swap as bs
    | lt => rfl
    | gt => rfl

theorem lexCmp_lt_trans : ∀ as bs cs : List Char,
    lexCmp as bs = .lt → lexCmp bs cs = .lt → lexCmp as cs = .lt
  | [], [], _, h₁, _ => by cases h₁
  | [], _ :: _, [], _, h₂ => by cases h₂
  | [], _ :: _, _ :: _, _, _ => rfl
  | _ :: _, [], _, h₁, _ => by cases h₁
  | _ :: _, _ :: _, [], _, h₂ => by cases h₂
  | a :: as, b :: bs, c :: cs, h₁, h₂ => by
    unfold lexCmp at *
    cases hab : charCmp a b with
    | eq =>
      have : a = b := charCmp_eq_eq.mp hab
      subst this
      rw [hab] at h₁
      cases hbc : charCmp a c with
      | eq =>
        rw [hbc] at h₂
        exact lexCmp_lt_trans as bs cs h₁ h₂
      | lt => rfl
      | gt => rw [hbc] at h₂; cases h₂
    | lt =>
      cases hbc : charCmp b c with
      | eq =>
        have : b = c := charCmp_eq_eq.mp hbc
        subst this
        rw [hab]
      | lt => rw [charCmp_lt_trans hab hbc]
      | gt => rw [hbc] at h₂; cases h₂
    | gt => rw [hab] at h₁; cases h₁

theorem tokEq_iff : ∀ a b : Tok, tokEq a b = true ↔ a = b
  | .int _, .int _ => by simp [tokEq]
  | .int _, .str _ => by simp [tokEq]
  | .str _, .int _ => by simp [tokEq]
  | .str _, .str _ => by simp [tokEq]

theorem tokEq_symm (a b : Tok) : tokEq a b = tokEq b a := by
  cases hab : tokEq a b with
  | true =>
    have : a = b := (tokEq_iff a b).mp hab
    subst this
    exact ((tokEq_iff a a).mpr rfl).symm
  | false =>
    cases hba : tokEq b a with
    | true =>
      have : b = a := (tokEq_iff b a).mp hba
      subst this
      rw [hab] at hba
      exact hba
    | false => rfl

theorem toksCmp_self (ts : List Tok) : toksCmp ts ts = .ok (.eq) := by
  induction ts with
  | nil => rfl
  | cons t ts ih =>
    unfold toksCmp
    rw [if_pos ((tokEq_iff t t).mpr rfl)]
    exact ih

theorem toksCmp_eq_eq : ∀ ts us : List Tok, toksCmp ts us = .ok (.eq) ↔ ts = us
  | [], [] => by simp [toksCmp]
  | [], _ :: _ => by simp [toksCmp]
  | _ :: _, [] => by simp [toksCmp]
  | a :: as, b :: bs => by
    unfold toksCmp
    by_cases h : tokEq a b = true
    · have hab : a = b := (tokEq_iff a b).mp h
      subst hab
      rw [if_pos h, toksCmp_eq_eq as bs]
      simp
    · have hab : a ≠ b := fun hc => h ((tokEq_iff a b).mpr hc)
      rw [if_neg h]
      match a, b with
      | .int x, .int y =>
        have hxy : x ≠ y := fun hc => hab (by rw [hc])
        have : natCmp x y ≠ .eq := fun hc => hxy (natCmp_eq_eq.mp hc)
        simp [hab]
        intro hc
        exact this hc
      | .str x, .str y =>
        have hxy : x ≠ y := fun hc => hab (by rw [hc])
        have : lexCmp x y ≠ .eq := fun hc => hxy ((lexCmp_eq_eq x y).mp hc)
        simp [hab]
        intro hc
        exact this hc
      | .int _, .str _ => simp
      | .str _, .int _ => simp

theorem toksCmp_swap : ∀ ts us : List Tok, toksCmp us ts = swapE (toksCmp ts us)
  | [], [] => rfl
  | [], _ :: _ => rfl
  | _ :: _, [] => rfl
  | a :: as, b :: bs => by
    unfold toksCmp
    rw [tokEq_symm b a]
    by_cases h : tokEq a b = true
    · rw [if_pos h, if_pos h]
      exact toksCmp_swap as bs
    · rw [if_neg h, if_neg h]
      match a, b with
      | .int x, .int y => simp [swapE, natCmp_swap y x]
      | .str x, .str y => simp [swapE, lexCmp_swap y x]
      | .int _, .str _ => rfl
      | .str _, .int _ => rfl

theorem toksCmp_lt_trans : ∀ ts us vs : List Tok,
    toksCmp ts us = .ok (.lt) → toksCmp us vs = .ok (.lt) → toksCmp ts vs = .ok (.lt)
  | [], [], _, h₁, _ => by cases h₁
  | [], _ :: _, [], _, h₂ => by cases h₂
  | [], _ :: _, _ :: _, _, _ => rfl
  | _ :: _, [], _, h₁, _ => by cases h₁
  | _ :: _, _ :: _, [], _, h₂ => by cases h₂
  | a :: as, b :: bs, c :: cs, h₁, h₂ => by
    unfold toksCmp at *
    by_cases hab : tokEq a b = true
    · have : a = b := (tokEq_iff a b).mp hab
      subst this
      rw [if_pos hab] at h₁
      by_cases hac : tokEq a c = true
      · have : a = c := (tokEq_iff a c).mp hac
        subst this
        rw [if_pos hac] at h₂ ⊢
        exact toksCmp_lt_trans as bs cs h₁ h₂
      · rw [if_neg hac] at h₂ ⊢
        exact h₂
    · rw [if_neg hab] at h₁
      by_cases hbc : tokEq b c = true
      · have : b = c := (tokEq_iff b c).mp hbc
        subst this
        rw [if_neg hab]
        exact h₁
      · rw [if_neg hbc] at h₂
        match a, b, c with
        | .int x, .int y, .int z =>
          have hxy : x < y := natCmp_eq_lt.mp (by injection h₁)
          have hyz : y < z := natCmp_eq_lt.mp (by injection h₂)
          have hxz : x ≠ z := by omega
          have : tokEq (Tok.int x) (Tok.int z) = false := by
            cases he : tokEq (Tok.int x) (Tok.int z) with
            | true => exact absurd (by injection (tokEq_iff _ _).mp he) hxz
            | false => rfl
          rw [if_neg (by rw [this]; exact Bool.false_ne_true)]
          show Except.ok (natCmp x z) = .ok (.lt)
          rw [natCmp_eq_lt.mpr (by omega)]
        | .str x, .str y, .str z =>
          have hxy : lexCmp x y = .lt := by injection h₁
          have hyz : lexCmp y z = .lt := by injection h₂
          have hxz : lexCmp x z = .lt := lexCmp_lt_trans x y z hxy hyz
          have hne : x ≠ z := fun hc => by
            rw [hc, lexCmp_self] at hxz; cases hxz
          have : tokEq (Tok.str x) (Tok.str z) = false := by
            cases he : tokEq (Tok.str x) (Tok.str z) with
            | true => exact absurd (by injection (tokEq_iff _ _).mp he) hne
            | false => rfl
          rw [if_neg (by rw [this]; exact Bool.false_ne_true)]
          show Except.ok (lexCmp x z) = .ok (.lt)
          rw [hxz]
        | .int _, .int _, .str _ => cases h₂
        | .int _, .str _, _ => cases h₁
        | .str _, .int _, _ => cases h₁
        | .str _, .str _, .int _ => cases h₂

theorem lexCmp_le_trans {a b c : List Char} (h₁ : lexCmp a b ≠ .gt)
    (h₂ : lexCmp b c ≠ .gt) : lexCmp a c ≠ .gt := by
  cases hab : lexCmp a b with
  | gt => exact absurd hab h₁
  | eq =>
    have hab' : a = b := (lexCmp_eq_eq a b).mp hab
    subst hab'
    exact h₂
  | lt =>
    cases hbc : lexCmp b c with
    | gt => exact absurd hbc h₂
    | eq =>
      have hbc' : b = c := (lexCmp_eq_eq b c).mp hbc
      subst hbc'
      intro h
      rw [hab] at h
      cases h
    | lt =>
      intro h
      rw [lexCmp_lt_trans a b c hab hbc] at h
      cases h

theorem toksCmp_le_trans {a b c : List Tok}
    (h₁ : toksCmp a b = .ok (.lt) ∨ toksCmp a b = .ok (.eq))
    (h₂ : toksCmp b c = .ok (.lt) ∨ toksCmp b c = .ok (.eq)) :
    toksCmp a c = .ok (.lt) ∨ toksCmp a c = .ok (.eq) := by
  rcases h₁ with h₁ | h₁
  · rcases h₂ with h₂ | h₂
    · exact Or.inl (toksCmp_lt_trans a b c h₁ h₂)
    · have hbc : b = c := (toksCmp_eq_eq b c).mp h₂
      subst hbc
      exact Or.inl h₁
  · have hab : a = b := (toksCmp_eq_eq a b).mp h₁
    subst hab
    exact h₂

/-! ### The scan of Python `max` returns a maximal element -/

theorem pyMaxByGo_mem (key : String → List Tok) :
    ∀ (vs : List String) (v m : String), pyMaxByGo key v vs = .ok m → m ∈ v :: vs := by
  intro vs
  induction vs with
  | nil =>
    intro v m h
    injection h with h
    subst h
    exact List.mem_singleton.mpr rfl
  | cons x xs ih =>
    intro v m h
    unfold pyMaxByGo at h
    cases hc : toksCmp (key x) (key v) with
    | error e => rw [hc] at h; cases h
    | ok o =>
      rw [hc] at h
      cases o with
      | gt =>
        rcases List.mem_cons.mp (ih x m h) with h' | h'
        · rw [h']; exact List.mem_cons_of_mem _ (List.mem_cons_self _ _)
        · exact List.mem_cons_of_mem _ (List.mem_cons_of_mem _ h')
      | lt =>
        rcases List.mem_cons.mp (ih v m h) with h' | h'
        · rw [h']; exact List.mem_cons_self _ _
        · exact List.mem_cons_of_mem _ (List.mem_cons_of_mem _ h')
      | eq =>
        rcases List.mem_cons.mp (ih v m h) with h' | h'
        · rw [h']; exact List.mem_cons_self _ _
        · exact List.mem_cons_of_mem _ (List.mem_cons_of_mem _ h')

theorem pyMaxByGo_ok (key : String → List Tok) :
    ∀ (vs : List String) (v : String),
    (∀ u ∈ v :: vs, ∀ w ∈ v :: vs, toksCmp (key u) (key w) ≠ .error ()) →
    ∃ r, pyMaxByGo key v vs = .ok r ∧ r ∈ v :: vs ∧
      ∀ u ∈ v :: vs,
        toksCmp (key u) (key r) = .ok (.lt) ∨ toksCmp (key u) (key r) = .ok (.eq) := by
  intro vs
  induction vs with
  | nil =>
    intro v _
    refine ⟨v, rfl, List.mem_singleton.mpr rfl, ?_⟩
    intro u hu
    rw [List.mem_singleton.mp hu]
    exact Or.inr (toksCmp_self (key v))
  | cons x xs ih =>
    intro v hcomp
    have hxv : toksCmp (key x) (key v) ≠ .error () :=
      hcomp x (List.mem_cons_of_mem _ (List.mem_cons_self _ _)) v (List.mem_cons_self _ _)
    cases hc : toksCmp (key x) (key v) with
    | error e => cases e; exact absurd hc hxv
    | ok o =>
      have hstep : pyMaxByGo key v (x :: xs) =
          (match toksCmp (key x) (key v) with
            | .error e => .error e
            | .ok (.gt) => pyMaxByGo key x xs
            | .ok _ => pyMaxByGo key v xs) := rfl
      cases o with
      | gt =>
        have hsub : ∀ u ∈ x :: xs, ∀ w ∈ x :: xs, toksCmp (key u) (key w) ≠ .error () := by
          intro u hu w hw
          exact hcomp u (List.mem_cons_of_mem _ hu) w (List.mem_cons_of_mem _ hw)
        obtain ⟨r, hr, hm, hg⟩ := ih x hsub
        refine ⟨r, ?_, List.mem_cons_of_mem _ hm, ?_⟩
        · rw [hstep, hc]
          exact hr
        · intro u hu
          rcases List.mem_cons.mp hu with h' | h'
          · rw [h']
            have hvx : toksCmp (key v) (key x) = .ok (.lt) := by
              have hs := toksCmp_swap (key x) (key v)
              rw [hc] at hs
              exact hs
            exact toksCmp_le_trans (Or.inl hvx) (hg x (List.mem_cons_self _ _))
          · exact hg u h'
      | lt =>
        have hlift : ∀ z, z ∈ v :: xs → z ∈ v :: x :: xs := by
          intro z hz
          rcases List.mem_cons.mp hz with h' | h'
          · rw [h']; exact List.mem_cons_self _ _
          · exact List.mem_cons_of_mem _ (List.mem_cons_of_mem _ h')
        have hsub : ∀ u ∈ v :: xs, ∀ w ∈ v :: xs, toksCmp (key u) (key w) ≠ .error () := by
          intro u hu w hw
          exact hcomp u (hlift u hu) w (hlift w hw)
        obtain ⟨r, hr, hm, hg⟩ := ih v hsub
        have hmem : r ∈ v :: x :: xs := by
          rcases List.mem_cons.mp hm with h' | h'
          · exact h' ▸ List.mem_cons_self _ _
          · exact List.mem_cons_of_mem _ (List.mem_cons_of_mem _ h')
        refine ⟨r, ?_, hmem, ?_⟩
        · rw [hstep, hc]
          exact hr
        · intro u hu
          rcases List.mem_cons.mp hu with h' | h'
          · rw [h']
            exact hg v (List.mem_cons_self _ _)
          · rcases List.mem_cons.mp h' with h'' | h''
            · rw [h'']
              exact toksCmp_le_trans (Or.inl hc) (hg v (List.mem_cons_self _ _))
            · exact hg u (List.mem_cons_of_mem _ h'')
      | eq =>
        have hlift : ∀ z, z ∈ v :: xs → z ∈ v :: x :: xs := by
          intro z hz
          rcases List.mem_cons.mp hz with h' | h'
          · rw [h']; exact List.mem_cons_self _ _
          · exact List.mem_cons_of_mem _ (List.mem_cons_of_mem _ h')
        have hsub : ∀ u ∈ v :: xs, ∀ w ∈ v :: xs, toksCmp (key u) (key w) ≠ .error () := by
          intro u hu w hw
          exact hcomp u (hlift u hu) w (hlift w hw)
        obtain ⟨r, hr, hm, hg⟩ := ih v hsub
        have hmem : r ∈ v :: x :: xs := by
          rcases List.mem_cons.mp hm with h' | h'
          · exact h' ▸ List.mem_cons_self _ _
          · exact List.mem_cons_of_mem _ (List.mem_cons_of_mem _ h')
        refine ⟨r, ?_, hmem, ?_⟩
        · rw [hstep, hc]
          exact hr
        · intro u hu
          rcases List.mem_cons.mp hu with h' | h'
          · rw [h']
            exact hg v (List.mem_cons_self _ _)
          · rcases List.mem_cons.mp h' with h'' | h''
            · rw [h'']
              exact toksCmp_le_trans (Or.inr hc) (hg v (List.mem_cons_self _ _))
            · exact hg u (List.mem_cons_of_mem _ h'')

theorem pyStrMax_mem : ∀ (vs : List String) (v : String), pyStrMax v vs ∈ v :: vs := by
  intro vs
  induction vs with
  | nil => intro v; exact List.mem_singleton.mpr rfl
  | cons x xs ih =>
    intro v
    have hstep : pyStrMax v (x :: xs) =
        pyStrMax (if lexCmp x.data v.data = .gt then x else v) xs := rfl
    rw [hstep]
    split
    · rcases List.mem_cons.mp (ih x) with h' | h'
      · rw [h']; exact List.mem_cons_of_mem _ (List.mem_cons_self _ _)
      · exact List.mem_cons_of_mem _ (List.mem_cons_of_mem _ h')
    · rcases List.mem_cons.mp (ih v) with h' | h'
      · rw [h']; exact List.mem_cons_self _ _
      · exact List.mem_cons_of_mem _ (List.mem_cons_of_mem _ h')

theorem pyStrMax_not_gt : ∀ (vs : List String) (v : String),
    ∀ u ∈ v :: vs, lexCmp u.data (pyStrMax v vs).data ≠ .gt := by
  intro vs
  induction vs with
  | nil =>
    intro v u hu
    rw [List.mem_singleton.mp hu]
    show lexCmp v.data v.data ≠ .gt
    rw [lexCmp_self]
    intro h
    cases h
  | cons x xs ih =>
    intro v u hu
    have hstep : pyStrMax v (x :: xs) =
        pyStrMax (if lexCmp x.data v.data = .gt then x else v) xs := rfl
    rw [hstep]
    set m := if lexCmp x.data v.data = .gt then x else v with hm
    have hvm : lexCmp v.data m.data ≠ .gt := by
      rw [hm]
      split
      · rename_i hgt
        have := lexCmp_swap x.data v.data
        rw [hgt] at this
        intro h
        rw [this] at h
        cases h
      · rw [lexCmp_self]; intro h; cases h
    have hxm : lexCmp x.data m.data ≠ .gt := by
      rw [hm]
      split
      · rw [lexCmp_self]; intro h; cases h
      · rename_i hgt
        exact hgt
    have hmr : lexCmp m.data (pyStrMax m xs).data ≠ .gt :=
      ih m m (List.mem_cons_self _ _)
    rcases List.mem_cons.mp hu with h' | h'
    · subst h'
      exact lexCmp_le_trans hvm hmr
    · rcases List.mem_cons.mp h' with h'' | h''
      · subst h''
        exact lexCmp_le_trans hxm hmr
      · exact ih m u (List.mem_cons_of_mem _ h'')

theorem selectLatest_mem :
    ∀ l : List String, l ≠ [] → ∃ r, selectLatest l = some r ∧ r ∈ l := by
  intro l hl
  cases l with
  | nil => exact absurd rfl hl
  | cons v vs =>
    cases hc : pyMaxByGo keyOf v vs with
    | ok m =>
      refine ⟨m, ?_, pyMaxByGo_mem keyOf vs v m hc⟩
      simp only [selectLatest]
      rw [hc]
    | error e =>
      cases e
      refine ⟨pyStrMax v vs, ?_, pyStrMax_mem vs v⟩
      simp only [selectLatest]
      rw [hc]

/-- C2 (amended): the latest-version selection is invariant under
permutation of the version list provided every pair of version keys is
structurally comparable (no integer token ever meets a string token at
the first differing compared position) and distinct version strings have
distinct token keys.  Without these provisos the selection depends on
insertion order (see the counterexample theorem). -/
theorem selectLatest_perm (l₁ l₂ : List String) (hp : l₁.Perm l₂)
    (hcomp : ∀ u ∈ l₁, ∀ w ∈ l₁, toksCmp (keyOf u) (keyOf w) ≠ .error ())
    (hinj : ∀ u ∈ l₁, ∀ w ∈ l₁, keyOf u = keyOf w → u = w) :
    selectLatest l₁ = selectLatest l₂ := by
  cases l₁ with
  | nil =>
    have h2 : l₂ = [] := hp.symm.eq_nil
    rw [h2]
  | cons v vs =>
    cases l₂ with
    | nil => exact absurd hp.eq_nil (by simp)
    | cons w ws =>
      obtain ⟨r₁, e₁, m₁, g₁⟩ := pyMaxByGo_ok keyOf vs v hcomp
      have hcomp₂ : ∀ u ∈ w :: ws, ∀ x ∈ w :: ws, toksCmp (keyOf u) (keyOf x) ≠ .error () := by
        intro u hu x hx
        exact hcomp u (hp.mem_iff.mpr hu) x (hp.mem_iff.mpr hx)
      obtain ⟨r₂, e₂, m₂, g₂⟩ := pyMaxByGo_ok keyOf ws w hcomp₂
      have h12 := g₂ r₁ (hp.mem_iff.mp m₁)
      have h21 := g₁ r₂ (hp.mem_iff.mpr m₂)
      have hkey : keyOf r₁ = keyOf r₂ := by
        rcases h12 with h | h
        · exfalso
          have hswap := toksCmp_swap (keyOf r₁) (keyOf r₂)
          rw [h] at hswap
          rcases h21 with h' | h' <;> rw [h'] at hswap <;> cases hswap
        · exact (toksCmp_eq_eq _ _).mp h
      have hr : r₁ = r₂ := hinj r₁ m₁ r₂ (hp.mem_iff.mpr m₂) hkey
      simp only [selectLatest]
      rw [e₁, e₂, hr]

/-! ### Structure of the `sw_stats` tables -/

theorem bump_ne_nil : ∀ (tbl : VersionTable) (v : String), bump tbl v ≠ []
  | [], v => by simp [bump]
  | (k, c) :: rest, v => by
    unfold bump
    split <;> simp

theorem bump_keys : ∀ (tbl : VersionTable) (v : String),
    (bump tbl v).map Prod.fst =
      if v ∈ tbl.map Prod.fst then tbl.map Prod.fst else tbl.map Prod.fst ++ [v]
  | [], v => by simp [bump]
  | (k, c) :: rest, v => by
    unfold bump
    by_cases hk : k = v
    · rw [if_pos hk]
      simp only [List.map_cons]
      rw [if_pos (by rw [← hk]; exact List.mem_cons_self _ _)]
    · rw [if_neg hk]
      simp only [List.map_cons]
      rw [bump_keys rest v]
      by_cases hv : v ∈ rest.map Prod.fst
      · rw [if_pos hv, if_pos (List.mem_cons_of_mem _ hv)]
      · rw [if_neg hv, if_neg ?_]
        · simp
        · intro hc
          rcases List.mem_cons.mp hc with h | h
          · exact hk h.symm
          · exact hv h

theorem bump_counts : ∀ (tbl : VersionTable) (v : String),
    (∀ q ∈ tbl, 1 ≤ q.2) → ∀ q ∈ bump tbl v, 1 ≤ q.2
  | [], v, _, q, hq => by
    simp [bump] at hq
    rw [hq]
  | (k, c) :: rest, v, h, q, hq => by
    unfold bump at hq
    split at hq
    · rcases List.mem_cons.mp hq with h' | h'
      · rw [h']
        exact Nat.le_succ_of_le (h (k, c) (List.mem_cons_self _ _))
      · exact h q (List.mem_cons_of_mem _ h')
    · rcases List.mem_cons.mp hq with h' | h'
      · rw [h']
        exact h (k, c) (List.mem_cons_self _ _)
      · exact bump_counts rest v (fun q hq => h q (List.mem_cons_of_mem _ hq)) q h'

theorem bump_sum : ∀ (tbl : VersionTable) (v : String),
    ((bump tbl v).map Prod.snd).sum = (tbl.map Prod.snd).sum + 1
  | [], v => by simp [bump]
  | (k, c) :: rest, v => by
    unfold bump
    split
    · simp only [List.map_cons, List.sum_cons]
      omega
    · simp only [List.map_cons, List.sum_cons, bump_sum rest v]
      omega

theorem addInstall_findTbl_self : ∀ (st : Stats) (n v : String),
    findTbl (addInstall st n v) n = some (bump ((findTbl st n).getD []) v)
  | [], n, v => by simp [addInstall, findTbl, bump]
  | (k, tbl) :: rest, n, v => by
    unfold addInstall
    by_cases hk : k = n
    · rw [if_pos hk]
      unfold findTbl
      rw [if_pos hk, if_pos hk]
      rfl
    · rw [if_neg hk]
      unfold findTbl
      rw [if_neg hk, if_neg hk]
      exact addInstall_findTbl_self rest n v

theorem addInstall_findTbl_other : ∀ (st : Stats) (n v m : String), m ≠ n →
    findTbl (addInstall st n v) m = findTbl st m
  | [], n, v, m, h => by
    unfold addInstall findTbl
    rw [if_neg (fun hc => h hc.symm)]
    rfl
  | (k, tbl) :: rest, n, v, m, h => by
    unfold addInstall
    by_cases hk : k = n
    · rw [if_pos hk]
      unfold findTbl
      by_cases hm : k = m
      · exact absurd (hm.symm.trans hk) h
      · rw [if_neg hm, if_neg hm]
    · rw [if_neg hk]
      unfold findTbl
      by_cases hm : k = m
      · rw [if_pos hm, if_pos hm]
      · rw [if_neg hm, if_neg hm]
        exact addInstall_findTbl_other rest n v m h

theorem addInstall_keys : ∀ (st : Stats) (n v : String),
    (addInstall st n v).map Prod.fst =
      if n ∈ st.map Prod.fst then st.map Prod.fst else st.map Prod.fst ++ [n]
  | [], n, v => by simp [addInstall]
  | (k, tbl) :: rest, n, v => by
    unfold addInstall
    by_cases hk : k = n
    · rw [if_pos hk]
      simp only [List.map_cons]
      rw [if_pos (by rw [← hk]; exact List.mem_cons_self _ _)]
    · rw [if_neg hk]
      simp only [List.map_cons]
      rw [addInstall_keys rest n v]
      by_cases hn : n ∈ rest.map Prod.fst
      · rw [if_pos hn, if_pos (List.mem_cons_of_mem _ hn)]
      · rw [if_neg hn, if_neg ?_]
        · simp
        · intro hc
          rcases List.mem_cons.mp hc with h | h
          · exact hk h.symm
          · exact hn h

theorem statsWF_addInstall : ∀ (st : Stats) (n v : String),
    StatsWF st → StatsWF (addInstall st n v)
  | [], n, v, _ => by
    constructor
    · simp [addInstall]
    · intro p hp
      simp [addInstall] at hp
      rw [hp]
      refine ⟨by simp, by simp, ?_⟩
      intro q hq
      simp at hq
      rw [hq]
  | (k, tbl) :: rest, n, v, hwf => by
    obtain ⟨hnodup, hmem⟩ := hwf
    simp only [List.map_cons] at hnodup
    obtain ⟨hknotin, hrestnodup⟩ := List.nodup_cons.mp hnodup
    unfold addInstall
    by_cases hk : k = n
    · rw [if_pos hk]
      constructor
      · simp only [List.map_cons]
        exact List.nodup_cons.mpr ⟨hknotin, hrestnodup⟩
      · intro p hp
        rcases List.mem_cons.mp hp with h' | h'
        · obtain ⟨htne, htnodup, htcount⟩ := hmem (k, tbl) (List.mem_cons_self _ _)
          rw [h']
          refine ⟨bump_ne_nil tbl v, ?_, bump_counts tbl v htcount⟩
          rw [bump_keys tbl v]
          split
          · exact htnodup
          · rw [List.nodup_append]
            refine ⟨htnodup, List.nodup_singleton v, ?_⟩
            intro a ha hb
            rw [List.mem_singleton.mp hb] at ha
            rename_i hvnotin
            exact hvnotin ha
        · exact hmem p (List.mem_cons_of_mem _ h')
    · rw [if_neg hk]
      have hwfrest : StatsWF rest :=
        ⟨hrestnodup, fun p hp => hmem p (List.mem_cons_of_mem _ hp)⟩
      obtain ⟨hnodup', hmem'⟩ := statsWF_addInstall rest n v hwfrest
      constructor
      · simp only [List.map_cons]
        refine List.nodup_cons.mpr ⟨?_, hnodup'⟩
        rw [addInstall_keys rest n v]
        split
        · exact hknotin
        · intro hc
          rcases List.mem_append.mp hc with h | h
          · exact hknotin h
          · exact hk (List.mem_singleton.mp h)
      · intro p hp
        rcases List.mem_cons.mp hp with h' | h'
        · rw [h']
          exact hmem (k, tbl) (List.mem_cons_self _ _)
        · exact hmem' p h'

theorem statsWF_installStep (st : Stats) (sw : SwInstall) (h : StatsWF st) :
    StatsWF (installStep st sw) := by
  unfold installStep
  cases sw.name with
  | none => exact h
  | some n =>
    cases sw.versionRaw with
    | none => exact h
    | some v =>
      show StatsWF (if n = ("") ∨ v = ("") then st else addInstall st n v)
      split
      · exact h
      · exact statsWF_addInstall st n v h

theorem statsWF_foldInstalls : ∀ (l : List SwInstall) (st : Stats),
    StatsWF st → StatsWF (l.foldl installStep st)
  | [], _, h => h
  | sw :: l, st, h => statsWF_foldInstalls l _ (statsWF_installStep st sw h)

theorem statsWF_foldDevices : ∀ (devices : List DeviceRecord) (st : Stats),
    StatsWF st → StatsWF (devices.foldl (fun st d => d.software.foldl installStep st) st)
  | [], _, h => h
  | d :: ds, st, h => statsWF_foldDevices ds _ (statsWF_foldInstalls d.software st h)

theorem statsWF_buildStats (devices : List DeviceRecord) : StatsWF (buildStats devices) :=
  statsWF_foldDevices devices [] ⟨by simp, by intro p hp; cases hp⟩

theorem findTbl_of_mem_nodup : ∀ (st : Stats), (st.map Prod.fst).Nodup →
    ∀ p ∈ st, findTbl st p.1 = some p.2
  | [], _, p, hp => by cases hp
  | (k, tbl) :: rest, hnodup, p, hp => by
    simp only [List.map_cons] at hnodup
    obtain ⟨hknotin, hrestnodup⟩ := List.nodup_cons.mp hnodup
    unfold findTbl
    rcases List.mem_cons.mp hp with h' | h'
    · rw [h']
      simp
    · have hp1 : p.1 ∈ rest.map Prod.fst := List.mem_map_of_mem Prod.fst h'
      have hkne : k ≠ p.1 := fun hc => hknotin (by rw [hc]; exact hp1)
      rw [if_neg hkne]
      exact findTbl_of_mem_nodup rest hrestnodup p h'

/-! ### `totalFor` counts exactly the valid install entries -/

theorem totalFor_addInstall (st : Stats) (n v m : String) :
    totalFor (addInstall st n v) m = totalFor st m + (if m = n then 1 else 0) := by
  by_cases hm : m = n
  · rw [if_pos hm, hm]
    unfold totalFor
    rw [addInstall_findTbl_self st n v]
    simp only [Option.getD_some]
    exact bump_sum _ v
  · rw [if_neg hm]
    unfold totalFor
    rw [addInstall_findTbl_other st n v m hm]
    omega

theorem totalFor_installStep (st : Stats) (sw : SwInstall) (m : String) :
    totalFor (installStep st sw) m =
      totalFor st m + (if isValidNamed m sw then 1 else 0) := by
  unfold installStep isValidNamed
  cases sw.name with
  | none => simp
  | some n =>
    cases sw.versionRaw with
    | none => simp
    | some v =>
      show totalFor (if n = ("") ∨ v = ("") then st else addInstall st n v) m =
        totalFor st m + (if (n == m && !(n == ("")) && !(v == (""))) = true then 1 else 0)
      by_cases hne : n = ("") ∨ v = ("")
      · rw [if_pos hne]
        have hb : (n == m && !(n == ("")) && !(v == (""))) = false := by
          rcases hne with h | h <;> simp [h]
        rw [hb]
        simp
      · rw [if_neg hne]
        rw [totalFor_addInstall st n v m]
        push_neg at hne
        obtain ⟨h1, h2⟩ := hne
        by_cases hm : m = n
        · rw [if_pos hm]
          have hb : (n == m && !(n == ("")) && !(v == (""))) = true := by
            simp [hm, h1, h2]
          rw [hb]
          simp
        · rw [if_neg hm]
          have hb : (n == m && !(n == ("")) && !(v == (""))) = false := by
            simp [h1, h2]
            exact fun hc => hm hc.symm
          rw [hb]
          simp

theorem totalFor_foldInstalls : ∀ (l : List SwInstall) (st : Stats) (m : String),
    totalFor (l.foldl installStep st) m = totalFor st m + l.countP (isValidNamed m)
  | [], st, m => by simp
  | sw :: l, st, m => by
    simp only [List.foldl_cons]
    rw [totalFor_foldInstalls l (installStep st sw) m, totalFor_installStep st sw m]
    rw [List.countP_cons]
    cases hb : isValidNamed m sw <;> simp [hb] <;> omega

theorem totalFor_foldDevices : ∀ (devices : List DeviceRecord) (st : Stats) (m : String),
    totalFor (devices.foldl (fun st d => d.software.foldl installStep st) st) m =
      totalFor st m + ((devices.map (fun d => d.software)).flatten).countP (isValidNamed m)
  | [], st, m => by simp
  | d :: ds, st, m => by
    simp only [List.foldl_cons, List.map_cons, List.flatten_cons, List.countP_append]
    rw [totalFor_foldDevices ds _ m, totalFor_foldInstalls d.software st m]
    omega

theorem totalFor_buildStats (devices : List DeviceRecord) (m : String) :
    totalFor (buildStats devices) m = countInstallsNamed devices m := by
  unfold buildStats countInstallsNamed
  rw [totalFor_foldDevices devices [] m]
  simp [totalFor, findTbl]

/-! ### Version-table lookups -/

theorem lookupVer_mem : ∀ (tbl : VersionTable) (v : String) (c : Nat),
    lookupVer tbl v = some c → (v, c) ∈ tbl
  | [], v, c, h => by cases h
  | (k, c') :: rest, v, c, h => by
    unfold lookupVer at h
    split at h
    · rename_i hk
      injection h with h
      rw [← hk, ← h]
      exact List.mem_cons_self _ _
    · exact List.mem_cons_of_mem _ (lookupVer_mem rest v c h)

theorem lookupVer_of_mem_keys : ∀ (tbl : VersionTable) (v : String),
    v ∈ tbl.map Prod.fst → ∃ c, lookupVer tbl v = some c
  | [], v, h => by simp at h
  | (k, c') :: rest, v, h => by
    unfold lookupVer
    by_cases hk : k = v
    · exact ⟨c', by rw [if_pos hk]⟩
    · rw [if_neg hk]
      apply lookupVer_of_mem_keys rest v
      simp only [List.map_cons] at h
      rcases List.mem_cons.mp h with h' | h'
      · exact absurd h'.symm hk
      · exact h'

theorem count_le_sum : ∀ (tbl : VersionTable) (v : String) (c : Nat),
    (v, c) ∈ tbl → c ≤ (tbl.map Prod.snd).sum
  | [], v, c, h => by cases h
  | (k, c') :: rest, v, c, h => by
    simp only [List.map_cons, List.sum_cons]
    rcases List.mem_cons.mp h with h' | h'
    · injection h' with h1 h2
      omega
    · have := count_le_sum rest v c h'
      omega

/-! ### Field equations for `mkAggregate` -/

theorem mkAggregate_softwareName (p : String × VersionTable) :
    (mkAggregate p).softwareName = p.1 := rfl

theorem mkAggregate_versionCounts (p : String × VersionTable) :
    (mkAggregate p).versionCounts = p.2 := rfl

theorem mkAggregate_totalInstalls (p : String × VersionTable) :
    (mkAggregate p).totalInstalls = (p.2.map Prod.snd).sum := rfl

theorem mkAggregate_latestVersion (p : String × VersionTable) :
    (mkAggregate p).latestVersion = (selectLatest (p.2.map Prod.fst)).getD ("") := rfl

theorem mkAggregate_updatedInstalls (p : String × VersionTable) :
    (mkAggregate p).updatedInstalls =
      (lookupVer p.2 ((selectLatest (p.2.map Prod.fst)).getD (""))).getD 0 := rfl

theorem mkAggregate_updatedPercent (p : String × VersionTable) :
    (mkAggregate p).updatedPercent =
      if 0 < (p.2.map Prod.snd).sum then
        (((lookupVer p.2 ((selectLatest (p.2.map Prod.fst)).getD (""))).getD 0 : ℚ) /
          ((p.2.map Prod.snd).sum : ℚ)) * 100
      else 0 := rfl

/-! ### Claim theorems -/

/-- C1, counterexample: on versions `9` and `1a` the spec-modelled
int-below-str order ranks `9` strictly below `1a`, yet the selection
returns `9` (the structured comparison raises and the code falls back to
the plain lexicographic maximum), so the selected version is not the
maximum under the claimed total order. -/
theorem latest_violates_spec_mixed_order :
    selectLatest [("9" : String), ("1a" : String)] = some ("9") ∧
    specKeyCmp (keyOf ("9")) (keyOf ("1a")) = .lt := ⟨rfl, rfl⟩

/-- C1 (amended): an integer token and a string token at the first
differing compared position make the token-list comparison raise
`TypeError` (the tokens are incomparable, not ordered int-below-str);
when such an error occurs during the `max` scan, the selection is the
plain lexicographic maximum of the raw version strings. -/
theorem mixed_token_comparison_falls_back :
    (∀ (pre as bs : List Tok) (n : Nat) (s : List Char),
      toksCmp (pre ++ Tok.int n :: as) (pre ++ Tok.str s :: bs) = .error ()) ∧
    (∀ (v : String) (vs : List String),
      pyMaxByGo keyOf v vs = .error () → selectLatest (v :: vs) = some (pyStrMax v vs)) := by
  constructor
  · intro pre
    induction pre with
    | nil => intro as bs n s; rfl
    | cons t pre ih =>
      intro as bs n s
      show toksCmp (t :: (pre ++ Tok.int n :: as)) (t :: (pre ++ Tok.str s :: bs)) = .error ()
      unfold toksCmp
      rw [if_pos ((tokEq_iff t t).mpr rfl)]
      exact ih as bs n s
  · intro v vs h
    simp only [selectLatest]
    rw [h]

/-- Witness for C1's amended theorem at concrete inputs. -/
theorem mixed_token_comparison_falls_back_witness :
    toksCmp [Tok.int 1] [Tok.str ['a']] = .error () ∧
    selectLatest [("9" : String), ("1a" : String)] = some (pyStrMax ("9") [("1a" : String)]) :=
  ⟨mixed_token_comparison_falls_back.1 [] [] [] 1 ['a'],
   mixed_token_comparison_falls_back.2 ("9") [("1a")] rfl⟩

/-- C2, counterexample: `[devA, devB]` and `[devB, devA]` are
permutations of each other presenting the same multiset of installs
(`app` at `1.2` and at `01.2`, whose token keys are both `[1, 2]`), yet
the selected latest version differs: Python `max` keeps the first of two
key-equal versions, so insertion order decides. -/
theorem latest_depends_on_insertion_order :
    (collect_software_metrics [devA, devB]).map (fun a => a.latestVersion) = [("1.2" : String)] ∧
    (collect_software_metrics [devB, devA]).map (fun a => a.latestVersion) = [("01.2" : String)] ∧
    [devA, devB].Perm [devB, devA] :=
  ⟨rfl, rfl, List.Perm.swap devB devA []⟩

/-- Witness for C2's amended theorem: on `9` and `10` (pairwise
comparable, distinct keys) the selection is order-independent. -/
theorem selectLatest_perm_witness :
    selectLatest [("9" : String), ("10" : String)] =
      selectLatest [("10" : String), ("9" : String)] :=
  selectLatest_perm [("9"), ("10")] [("10"), ("9")]
    (List.Perm.swap ("10") ("9") []) (by decide) (by decide)

/-- C3: on a non-empty version list the selection always yields some
element of the list; when the structured comparison raises, the result
is the plain lexicographic maximum of the raw strings (a member of the
list which no member exceeds lexicographically), and this fallback
itself cannot fail. -/
theorem fallback_lexicographic_total (v : String) (vs : List String) :
    (∃ r, selectLatest (v :: vs) = some r ∧ r ∈ v :: vs) ∧
    (pyMaxByGo keyOf v vs = .error () →
      selectLatest (v :: vs) = some (pyStrMax v vs) ∧
      pyStrMax v vs ∈ v :: vs ∧
      ∀ u ∈ v :: vs, lexCmp u.data (pyStrMax v vs).data ≠ .gt) := by
  constructor
  · exact selectLatest_mem (v :: vs) (by simp)
  · intro h
    refine ⟨?_, pyStrMax_mem vs v, pyStrMax_not_gt vs v⟩
    simp only [selectLatest]
    rw [h]

/-- Witness for C3 at a concrete error-raising input. -/
theorem fallback_lexicographic_total_witness :
    selectLatest [("1.2" : String), ("beta" : String)] = some ("beta") := by
  have h := (fallback_lexicographic_total ("1.2") [("beta")]).2 rfl
  rw [h.1]
  rfl

/-- C4: the selection returns `10` from versions `9`/`10` (numeric, not
lexicographic), `1.10` from `1.9`/`1.10`, and `beta` from
`1.2`/`beta`, in either presentation order. -/
theorem comparator_test_cases :
    selectLatest [("9" : String), ("10" : String)] = some ("10") ∧
    selectLatest [("10" : String), ("9" : String)] = some ("10") ∧
    selectLatest [("1.9" : String), ("1.10" : String)] = some ("1.10") ∧
    selectLatest [("1.10" : String), ("1.9" : String)] = some ("1.10") ∧
    selectLatest [("1.2" : String), ("beta" : String)] = some ("beta") ∧
    selectLatest [("beta" : String), ("1.2" : String)] = some ("beta") :=
  ⟨rfl, rfl, rfl, rfl, rfl, rfl⟩

/-- C5: for every device list, the recorded total for any software name
equals the number of install entries across all devices having that name
with both name and version present and non-empty; entries with a missing
name or version are counted nowhere, and every emitted aggregate's
`totalInstalls` is exactly that count for its name. -/
theorem totalInstalls_counts_valid_entries (devices : List DeviceRecord) :
    (∀ n, totalFor (buildStats devices) n = countInstallsNamed devices n) ∧
    (∀ agg ∈ collect_software_metrics devices,
      agg.totalInstalls = countInstallsNamed devices agg.softwareName) := by
  constructor
  · exact totalFor_buildStats devices
  · intro agg hagg
    obtain ⟨p, hp, hpe⟩ := List.mem_map.mp hagg
    obtain ⟨hnodup, _⟩ := statsWF_buildStats devices
    have hfind : findTbl (buildStats devices) p.1 = some p.2 :=
      findTbl_of_mem_nodup (buildStats devices) hnodup p hp
    rw [← hpe, mkAggregate_totalInstalls, mkAggregate_softwareName]
    rw [← totalFor_buildStats devices p.1]
    unfold totalFor
    rw [hfind]
    rfl

/-- Witness for C5 on a concrete device list with one valid and one
invalid install. -/
theorem totalInstalls_counts_valid_entries_witness :
    totalFor (buildStats [demoDevice]) ("app") = 1 ∧
    countInstallsNamed [demoDevice] ("app") = 1 := by
  have h := (totalInstalls_counts_valid_entries [demoDevice]).1 ("app")
  exact ⟨by rw [h]; rfl, rfl⟩

/-- C6: every emitted aggregate has distinct version keys, counts at
least 1, a total equal to the sum of the counts, a latest version that
is one of the recorded keys, an updated percentage within `[0, 100]`,
and a percentage of exactly 100 whenever all recorded installs share a
single version. -/
theorem aggregate_invariants (devices : List DeviceRecord) (agg : SoftwareAggregate)
    (h : agg ∈ collect_software_metrics devices) :
    (agg.versionCounts.map Prod.fst).Nodup ∧
    (∀ q ∈ agg.versionCounts, 1 ≤ q.2) ∧
    agg.totalInstalls = (agg.versionCounts.map Prod.snd).sum ∧
    agg.latestVersion ∈ agg.versionCounts.map Prod.fst ∧
    (0 ≤ agg.updatedPercent ∧ agg.updatedPercent ≤ 100) ∧
    ((∀ v ∈ agg.versionCounts.map Prod.fst, ∀ w ∈ agg.versionCounts.map Prod.fst, v = w) →
      agg.updatedPercent = 100) := by
  obtain ⟨p, hp, hpe⟩ := List.mem_map.mp h
  obtain ⟨houter, hmem⟩ := statsWF_buildStats devices
  obtain ⟨hne, hnodup, hcount⟩ := hmem p hp
  subst hpe
  have hkeysne : p.2.map Prod.fst ≠ [] := by
    intro hc
    exact hne (List.map_eq_nil_iff.mp hc)
  obtain ⟨r, hr, hrmem⟩ := selectLatest_mem (p.2.map Prod.fst) hkeysne
  have hgetd : (selectLatest (p.2.map Prod.fst)).getD ("") = r := by
    rw [hr]
    rfl
  have hlatest : (mkAggregate p).latestVersion = r := by
    rw [mkAggregate_latestVersion, hgetd]
  obtain ⟨c, hc⟩ := lookupVer_of_mem_keys p.2 r hrmem
  have hcmem : (r, c) ∈ p.2 := lookupVer_mem p.2 r c hc
  have hc1 : 1 ≤ c := hcount (r, c) hcmem
  have hcsum : c ≤ (p.2.map Prod.snd).sum := count_le_sum p.2 r c hcmem
  have hsumpos : 0 < (p.2.map Prod.snd).sum := lt_of_lt_of_le hc1 hcsum
  have hpct : (mkAggregate p).updatedPercent =
      ((c : ℚ) / ((p.2.map Prod.snd).sum : ℚ)) * 100 := by
    rw [mkAggregate_updatedPercent, hgetd, hc, if_pos hsumpos]
    rfl
  refine ⟨?_, ?_, ?_, ?_, ⟨?_, ?_⟩, ?_⟩
  · rw [mkAggregate_versionCounts]
    exact hnodup
  · rw [mkAggregate_versionCounts]
    exact hcount
  · rw [mkAggregate_totalInstalls, mkAggregate_versionCounts]
  · rw [mkAggregate_versionCounts, hlatest]
    exact hrmem
  · rw [hpct]
    have h0 : (0 : ℚ) ≤ (c : ℚ) / ((p.2.map Prod.snd).sum : ℚ) :=
      div_nonneg (by positivity) (by positivity)
    nlinarith
  · rw [hpct]
    have hq : (c : ℚ) / ((p.2.map Prod.snd).sum : ℚ) ≤ 1 := by
      rw [div_le_one (by exact_mod_cast hsumpos)]
      exact_mod_cast hcsum
    nlinarith
  · intro hall
    rw [mkAggregate_versionCounts] at hall
    cases hq2 : p.2 with
    | nil => exact absurd hq2 hne
    | cons q rest =>
      have hrest : rest.map Prod.fst = [] := by
        by_contra hcne
        obtain ⟨k, hk⟩ := List.exists_mem_of_ne_nil _ hcne
        have hk1 : k ∈ p.2.map Prod.fst := by
          rw [hq2]
          simp only [List.map_cons]
          exact List.mem_cons_of_mem _ hk
        have hq1 : q.1 ∈ p.2.map Prod.fst := by
          rw [hq2]
          simp only [List.map_cons]
          exact List.mem_cons_self _ _
        have hkeq : k = q.1 := hall k hk1 q.1 hq1
        have : (p.2.map Prod.fst).Nodup := hnodup
        rw [hq2] at this
        simp only [List.map_cons] at this
        obtain ⟨hnotin, _⟩ := List.nodup_cons.mp this
        exact hnotin (hkeq ▸ hk)
      have hrestnil : rest = [] := List.map_eq_nil_iff.mp hrest
      subst hrestnil
      have hsel : selectLatest (p.2.map Prod.fst) = some q.1 := by
        rw [hq2]
        rfl
      have hrq : r = q.1 := by
        rw [hsel] at hr
        injection hr with hr
        exact hr.symm
      have hcq : c = q.2 := by
        rw [hq2, hrq] at hc
        unfold lookupVer at hc
        rw [if_pos rfl] at hc
        injection hc with hc
        exact hc.symm
      have hsum : (p.2.map Prod.snd).sum = q.2 := by
        rw [hq2]
        simp
      rw [hpct, hcq, hsum]
      have hq1 : 1 ≤ q.2 := by
        rw [← hcq]
        exact hc1
      have hqne : ((q.2 : ℚ)) ≠ 0 := Nat.cast_ne_zero.mpr (by omega)
      rw [div_self hqne]
      norm_num

/-- Witness for C6 on the aggregate of a concrete device list. -/
theorem aggregate_invariants_witness :
    0 ≤ (mkAggregate (("app"), [(("1.0"), 1)])).updatedPercent ∧
    (mkAggregate (("app"), [(("1.0"), 1)])).updatedPercent ≤ 100 := by
  have hmem : mkAggregate (("app"), [(("1.0"), 1)]) ∈ collect_software_metrics [demoDevice] := by
    have he : collect_software_metrics [demoDevice] =
        [mkAggregate (("app"), [(("1.0"), 1)])] := rfl
    rw [he]
    exact List.mem_singleton.mpr rfl
  exact (aggregate_invariants [demoDevice] _ hmem).2.2.2.2.1

/-- C7: an empty device list yields no software aggregates and a device
count observation of 0. -/
theorem empty_devices_zero_metrics :
    collect_software_metrics [] = [] ∧ (collect_device_metrics []).deviceCount = 0 :=
  ⟨rfl, rfl⟩

theorem getDevicesLoop_runs (pages : Nat → List DeviceRecord) :
    ∀ (k page fuel : Nat) (acc : List DeviceRecord),
    (∀ i, page ≤ i → i < page + k → pageSize ≤ (pages i).length) →
    (pages (page + k) = [] ∨ (pages (page + k)).length < pageSize) →
    k < fuel →
    getDevicesLoop pages fuel page acc =
      some (acc ++ ((List.range' page (k + 1)).map pages).flatten) := by
  intro k
  induction k with
  | zero =>
    intro page fuel acc _ hstop hfuel
    cases fuel with
    | zero => omega
    | succ f =>
      show (if pages page = [] then some acc
        else if (pages page).length < pageSize then some (acc ++ pages page)
        else getDevicesLoop pages f (page + 1) (acc ++ pages page)) =
        some (acc ++ ((List.range' page 1).map pages).flatten)
      rw [Nat.add_zero] at hstop
      by_cases hb : pages page = []
      · rw [if_pos hb]
        simp [List.range', hb]
      · rw [if_neg hb]
        rcases hstop with hstop | hstop
        · exact absurd hstop hb
        · rw [if_pos hstop]
          simp [List.range']
  | succ k ih =>
    intro page fuel acc hcont hstop hfuel
    cases fuel with
    | zero => omega
    | succ f =>
      have hfirst : pageSize ≤ (pages page).length :=
        hcont page (Nat.le_refl page) (by omega)
      have hb : pages page ≠ [] := by
        intro hc
        rw [hc] at hfirst
        simp [pageSize] at hfirst
      show (if pages page = [] then some acc
        else if (pages page).length < pageSize then some (acc ++ pages page)
        else getDevicesLoop pages f (page + 1) (acc ++ pages page)) =
        some (acc ++ ((List.range' page (k + 2)).map pages).flatten)
      rw [if_neg hb, if_neg (by omega)]
      have hcont' : ∀ i, page + 1 ≤ i → i < (page + 1) + k → pageSize ≤ (pages i).length := by
        intro i h1 h2
        exact hcont i (by omega) (by omega)
      have hstop' : pages ((page + 1) + k) = [] ∨ (pages ((page + 1) + k)).length < pageSize := by
        have he : (page + 1) + k = page + (k + 1) := by omega
        rw [he]
        exact hstop
      rw [ih (page + 1) f (acc ++ pages page) hcont' hstop' (by omega)]
      have hrange : List.range' page (k + 2) = page :: List.range' (page + 1) (k + 1) := rfl
      rw [hrange]
      simp [List.append_assoc]

theorem getDevicesLoop_diverges (pages : Nat → List DeviceRecord)
    (hfull : ∀ i, 1 ≤ i → pageSize ≤ (pages i).length) :
    ∀ (fuel page : Nat) (acc : List DeviceRecord), 1 ≤ page →
    getDevicesLoop pages fuel page acc = none
  | 0, page, acc, _ => rfl
  | fuel + 1, page, acc, hp => by
    have hlen := hfull page hp
    have hb : pages page ≠ [] := by
      intro hc
      rw [hc] at hlen
      simp [pageSize] at hlen
    show (if pages page = [] then some acc
      else if (pages page).length < pageSize then some (acc ++ pages page)
      else getDevicesLoop pages fuel (page + 1) (acc ++ pages page)) = none
    rw [if_neg hb, if_neg (by omega)]
    exact getDevicesLoop_diverges pages hfull fuel (page + 1) (acc ++ pages page) (by omega)

/-- C8: the fetch loop stops exactly at the first page whose batch is
empty or shorter than the page size (100), returning the concatenation
of the batches of pages 1 through that page in order; when every page
returns a full batch the loop never terminates. -/
theorem pagination_terminates_iff_short_batch (pages : Nat → List DeviceRecord) :
    (∀ k, (∀ i, 1 ≤ i → i ≤ k → pageSize ≤ (pages i).length) →
      (pages (k + 1) = [] ∨ (pages (k + 1)).length < pageSize) →
      ∀ fuel, k < fuel →
        get_devices pages fuel = some (((List.range' 1 (k + 1)).map pages).flatten)) ∧
    ((∀ i, 1 ≤ i → pageSize ≤ (pages i).length) →
      ∀ fuel, get_devices pages fuel = none) := by
  constructor
  · intro k hcont hstop fuel hfuel
    unfold get_devices
    rw [getDevicesLoop_runs pages k 1 fuel [] ?_ ?_ hfuel]
    · simp
    · intro i h1 h2
      exact hcont i h1 (by omega)
    · have he : 1 + k = k + 1 := by omega
      rw [he]
      exact hstop
  · intro hfull fuel
    exact getDevicesLoop_diverges pages hfull fuel 1 [] (Nat.le_refl 1)

/-- Witness for C8: a first page that is empty stops the loop at once
with no devices. -/
theorem pagination_terminates_iff_short_batch_witness :
    get_devices (fun _ => ([] : List DeviceRecord)) 1 = some [] := by
  have h := (pagination_terminates_iff_short_batch (fun _ => ([] : List DeviceRecord))).1 0
    (by intro i h1 h2; omega) (Or.inl rfl) 1 (Nat.lt_succ_self 0)
  rw [h]
  rfl

/-- C9: the hardware projection is total: every device in the list
yields its `device_info` observation (missing fields projected to
`unknown`), and every disk, driver, Active-Directory and custom-field
sub-record yields its observation with `unknown`/`0` defaults, so a
missing field never aborts the cycle. -/
theorem missing_fields_default_and_continue (devices : List DeviceRecord)
    (d : DeviceRecord) (hd : d ∈ devices) :
    (collect_device_metrics devices).deviceInfos.length = devices.length ∧
    projectDeviceInfo d ∈ (collect_device_metrics devices).deviceInfos ∧
    (d.hostname = none → (projectDeviceInfo d).hostname = ("unknown")) ∧
    (d.architecture = none → (projectDeviceInfo d).architecture = ("unknown")) ∧
    (d.devId = none → (projectDeviceInfo d).devId = ("unknown")) ∧
    (d.insertedAt = none → (projectDeviceInfo d).insertedAt = ("unknown")) ∧
    (d.lastUser = none → (projectDeviceInfo d).lastUser = ("unknown")) ∧
    (d.model = none → (projectDeviceInfo d).model = ("unknown")) ∧
    (d.name = none → (projectDeviceInfo d).name = ("unknown")) ∧
    (d.osVersion = none → (projectDeviceInfo d).osVersion = ("unknown")) ∧
    (d.publicIpAddress = none → (projectDeviceInfo d).publicIpAddress = ("unknown")) ∧
    (d.serialNumber = none → (projectDeviceInfo d).serialNumber = ("unknown")) ∧
    (d.servicePack = none → (projectDeviceInfo d).servicePack = ("unknown")) ∧
    (∀ k ∈ d.disks,
      ({ hostname := d.hostname.getD ("unknown")
         diskId := k.diskId.getD ("unknown")
         model := k.model.getD ("unknown")
         mediaType := k.mediaType.getD ("unknown")
         totalSpaceKb := k.totalSpaceKb.getD 0 } : DiskLabels) ∈
        (collect_device_metrics devices).diskInfos) ∧
    (∀ k ∈ d.drivers,
      ({ hostname := d.hostname.getD ("unknown")
         driverId := k.driverId.getD ("unknown")
         name := k.name.getD ("unknown")
         version := k.version.getD ("unknown")
         provider := k.provider.getD ("unknown") } : DriverLabels) ∈
        (collect_device_metrics devices).driverInfos) ∧
    (∀ r, d.activeDirectory = some r →
      ({ hostname := d.hostname.getD ("unknown")
         deviceName := r.deviceName.getD ("unknown") } : ADLabels) ∈
        (collect_device_metrics devices).adInfos) ∧
    (∀ f ∈ d.customFields,
      ({ hostname := d.hostname.getD ("unknown")
         fieldName := f.name.getD ("unknown")
         fieldValue := f.value.getD ("unknown") } : CustomFieldLabels) ∈
        (collect_device_metrics devices).customFieldInfos) := by
  refine ⟨?_, ?_, ?_, ?_, ?_, ?_, ?_, ?_, ?_, ?_, ?_, ?_, ?_, ?_, ?_, ?_, ?_⟩
  · simp [collect_device_metrics]
  · exact List.mem_map_of_mem projectDeviceInfo hd
  · intro h; simp [projectDeviceInfo, h]
  · intro h; simp [projectDeviceInfo, h]
  · intro h; simp [projectDeviceInfo, h]
  · intro h; simp [projectDeviceInfo, h]
  · intro h; simp [projectDeviceInfo, h]
  · intro h; simp [projectDeviceInfo, h]
  · intro h; simp [projectDeviceInfo, h]
  · intro h; simp [projectDeviceInfo, h]
  · intro h; simp [projectDeviceInfo, h]
  · intro h; simp [projectDeviceInfo, h]
  · intro h; simp [projectDeviceInfo, h]
  · intro k hk
    show _ ∈ (devices.map projectDisks).flatten
    rw [List.mem_flatten]
    refine ⟨projectDisks d, List.mem_map_of_mem projectDisks hd, ?_⟩
    exact List.mem_map_of_mem _ hk
  · intro k hk
    show _ ∈ (devices.map projectDrivers).flatten
    rw [List.mem_flatten]
    refine ⟨projectDrivers d, List.mem_map_of_mem projectDrivers hd, ?_⟩
    exact List.mem_map_of_mem _ hk
  · intro r hr
    show _ ∈ (devices.map projectAD).flatten
    rw [List.mem_flatten]
    refine ⟨projectAD d, List.mem_map_of_mem projectAD hd, ?_⟩
    unfold projectAD
    rw [hr]
    exact List.mem_singleton.mpr rfl
  · intro f hf
    show _ ∈ (devices.map projectCustomFields).flatten
    rw [List.mem_flatten]
    refine ⟨projectCustomFields d, List.mem_map_of_mem projectCustomFields hd, ?_⟩
    exact List.mem_map_of_mem _ hf

/-- Witness for C9: a record with every field absent is still projected,
with the string defaults substituted. -/
theorem missing_fields_default_and_continue_witness :
    (collect_device_metrics [emptyDevice]).deviceInfos.length = 1 ∧
    (projectDeviceInfo emptyDevice).hostname = ("unknown") := by
  have h := missing_fields_default_and_continue [emptyDevice] emptyDevice
    (List.mem_singleton.mpr rfl)
  exact ⟨h.1, h.2.2.1 rfl⟩

theorem installStep_empty_id (st : Stats) (sw : SwInstall)
    (hsw : sw.name = some ("") ∨ sw.versionRaw = some ("")) : installStep st sw = st := by
  unfold installStep
  rcases hsw with h | h
  · rw [h]
    cases sw.versionRaw with
    | none => rfl
    | some v =>
      show (if ("") = ("") ∨ v = ("") then st else addInstall st ("") v) = st
      rw [if_pos (Or.inl rfl)]
  · rw [h]
    cases sw.name with
    | none => rfl
    | some n =>
      show (if n = ("") ∨ ("") = ("") then st else addInstall st n ("")) = st
      rw [if_pos (Or.inr rfl)]

theorem foldInstalls_skip (l₁ l₂ : List SwInstall) (sw : SwInstall)
    (hsw : sw.name = some ("") ∨ sw.versionRaw = some ("")) (st : Stats) :
    (l₁ ++ sw :: l₂).foldl installStep st = (l₁ ++ l₂).foldl installStep st := by
  rw [List.foldl_append, List.foldl_append]
  simp only [List.foldl_cons]
  rw [installStep_empty_id _ sw hsw]

theorem buildStats_congr_device (pre post : List DeviceRecord) (d d' : DeviceRecord)
    (h : ∀ st, d.software.foldl installStep st = d'.software.foldl installStep st) :
    buildStats (pre ++ d :: post) = buildStats (pre ++ d' :: post) := by
  unfold buildStats
  rw [List.foldl_append, List.foldl_append]
  simp only [List.foldl_cons]
  rw [h]

/-- C10: an install entry whose name or version is present but equal to
the empty string is excluded exactly as a missing field is: removing it
from the device's software list leaves every aggregate unchanged. -/
theorem empty_string_fields_excluded (pre post : List DeviceRecord) (d : DeviceRecord)
    (sw : SwInstall) (l₁ l₂ : List SwInstall)
    (hsw : sw.name = some ("") ∨ sw.versionRaw = some (""))
    (hd : d.software = l₁ ++ sw :: l₂) :
    collect_software_metrics (pre ++ d :: post) =
      collect_software_metrics (pre ++ { d with software := l₁ ++ l₂ } :: post) := by
  unfold collect_software_metrics
  rw [buildStats_congr_device pre post d _ ?_]
  intro st
  rw [hd]
  show (l₁ ++ sw :: l₂).foldl installStep st = (l₁ ++ l₂).foldl installStep st
  exact foldInstalls_skip l₁ l₂ sw hsw st

/-- Witness for C10: an install with an empty-string name contributes
nothing. -/
theorem empty_string_fields_excluded_witness :
    collect_software_metrics
      [{ software := [{ name := some (""), versionRaw := some ("1") }] }] =
      collect_software_metrics [{ software := ([] : List SwInstall) }] := by
  have h := empty_string_fields_excluded [] []
    { software := [{ name := some (""), versionRaw := some ("1") }] }
    { name := some (""), versionRaw := some ("1") } [] [] (Or.inl rfl) rfl
  exact h

end PDQ
